import Mathlib

/-!
Shallow embedding of the `geolocate` sorted interval map
(`geolocate-core/src/ip/mod.rs`), the country-code parser
(`geolocate-core/src/country.rs`) and the address deserialization helpers
(`geolocate-cli/src/ip.rs`), together with proofs about the embedded
operations.

Coordinates are modelled generically by a linear order `α` (the two concrete
coordinate kinds, `u32`-backed IPv4 addresses and `u128`-backed IPv6
addresses, are both total orders with copy semantics, which is all the
`Address` trait requires).  Machine-integer arithmetic appears only in the
deserialization helpers and is modelled on `Nat` with explicit `% 2 ^ w`.
-/

namespace Geolocate

/-- `IpAddrBlock(A, A)`: an inclusive span between two addresses.  The Rust
type is a tuple struct; field `start` models `.0` (accessor `start()`) and
field `stop` models `.1` (accessor `end()`). -/
structure IpAddrBlock (α : Type) where
  start : α
  stop : α
deriving DecidableEq

variable {α : Type} [LinearOrder α] {τ : Type}

namespace IpAddrBlock

/-- `PartialEq<A> for IpAddrBlock<A>`: `self.range().contains(other)`, i.e.
membership in the inclusive range `start ..= end`. -/
def containsAddr (b : IpAddrBlock α) (v : α) : Prop :=
  b.start ≤ v ∧ v ≤ b.stop

instance (b : IpAddrBlock α) (v : α) : Decidable (b.containsAddr v) :=
  inferInstanceAs (Decidable (_ ∧ _))

/-- `PartialOrd<A> for IpAddrBlock<A>` (comparing a block against a bare
address, source lines 356-365): `Equal` when the block contains the address,
then `Less` when `self.1 < v`, then `Greater` when `self.0 > v`; the final
`unreachable!("value could not be compared")` arm is modelled as `none`. -/
def compareToPoint (b : IpAddrBlock α) (v : α) : Option Ordering :=
  if b.containsAddr v then some .eq
  else if b.stop < v then some .lt
  else if v < b.start then some .gt
  else none

/-- The `unreachable!` arm of the point comparison really is unreachable over
a total order: the comparison always produces a value. -/
theorem compareToPoint_isSome (b : IpAddrBlock α) (v : α) :
    (b.compareToPoint v).isSome := by
  unfold compareToPoint containsAddr
  split
  · rfl
  split
  · rfl
  split
  · rfl
  rename_i h1 h2 h3
  exact absurd ⟨le_of_not_lt h3, le_of_not_lt h2⟩ h1

/-- The point comparator after `.expect(..)`, exactly as used by the map's
address search (`binary_search_by(|(b, _)| b.partial_cmp(&address).expect(..))`).
By `compareToPoint_isSome` the `.getD` default is never consulted. -/
def pointCmp (b : IpAddrBlock α) (v : α) : Ordering :=
  (b.compareToPoint v).getD .eq

/-- The derived `Ord for IpAddrBlock<A>` on the tuple struct: lexicographic
comparison of `.0`, tie-broken by `.1`.  This is also the ordering of the
sort key `(b.0, b.1)` used by `normalize`. -/
def blockCmp (a b : IpAddrBlock α) : Ordering :=
  (compare a.start b.start).then (compare a.stop b.stop)

/-- The strict order corresponding to `blockCmp = .lt`. -/
def blockLt (a b : IpAddrBlock α) : Prop :=
  a.start < b.start ∨ (a.start = b.start ∧ a.stop < b.stop)

instance (a b : IpAddrBlock α) : Decidable (blockLt a b) :=
  inferInstanceAs (Decidable (_ ∨ _))

theorem blockCmp_eq_lt_iff {a b : IpAddrBlock α} :
    blockCmp a b = .lt ↔ blockLt a b := by
  unfold blockCmp blockLt
  rcases lt_trichotomy a.start b.start with h | h | h
  · rw [compare_lt_iff_lt.2 h]
    simp only [Ordering.then, true_iff]
    exact Or.inl h
  · rw [h, compare_eq_iff_eq.2 rfl]
    simp only [Ordering.then]
    rw [compare_lt_iff_lt]
    constructor
    · intro h'
      exact Or.inr ⟨trivial, h'⟩
    · rintro (h' | ⟨_, h'⟩)
      · exact absurd h' (h ▸ lt_irrefl _)
      · exact h'
  · rw [compare_gt_iff_gt.2 h]
    simp only [Ordering.then]
    constructor
    · intro h'
      cases h'
    · rintro (h' | ⟨h', _⟩)
      · exact absurd h (lt_asymm h')
      · exact absurd h (h' ▸ lt_irrefl _)

theorem blockCmp_eq_eq_iff {a b : IpAddrBlock α} :
    blockCmp a b = .eq ↔ a = b := by
  unfold blockCmp
  rcases lt_trichotomy a.start b.start with h | h | h
  · rw [compare_lt_iff_lt.2 h]
    simp only [Ordering.then]
    constructor
    · intro h'
      cases h'
    · rintro rfl
      exact absurd h (lt_irrefl _)
  · rw [h, compare_eq_iff_eq.2 rfl]
    simp only [Ordering.then]
    rw [compare_eq_iff_eq]
    constructor
    · intro h'
      cases a
      cases b
      simp_all
    · rintro rfl
      rfl
  · rw [compare_gt_iff_gt.2 h]
    simp only [Ordering.then]
    constructor
    · intro h'
      cases h'
    · rintro rfl
      exact absurd h (lt_irrefl _)

theorem blockCmp_eq_gt_iff {a b : IpAddrBlock α} :
    blockCmp a b = .gt ↔ blockLt b a := by
  unfold blockCmp blockLt
  rcases lt_trichotomy a.start b.start with h | h | h
  · rw [compare_lt_iff_lt.2 h]
    simp only [Ordering.then]
    constructor
    · intro h'
      cases h'
    · rintro (h' | ⟨h', _⟩)
      · exact absurd h (lt_asymm h')
      · exact absurd h (h' ▸ lt_irrefl _)
  · rw [h, compare_eq_iff_eq.2 rfl]
    simp only [Ordering.then]
    rw [compare_gt_iff_gt]
    constructor
    · intro h'
      exact Or.inr ⟨trivial, h'⟩
    · rintro (h' | ⟨_, h'⟩)
      · exact absurd h' (h ▸ lt_irrefl _)
      · exact h'
  · rw [compare_gt_iff_gt.2 h]
    simp only [Ordering.then, true_iff]
    exact Or.inl h

theorem blockLt_trans {a b c : IpAddrBlock α} (h1 : blockLt a b) (h2 : blockLt b c) :
    blockLt a c := by
  unfold blockLt at *
  rcases h1 with h | ⟨h, h'⟩ <;> rcases h2 with g | ⟨g, g'⟩
  · exact Or.inl (h.trans g)
  · exact Or.inl (g ▸ h)
  · exact Or.inl (h ▸ g)
  · exact Or.inr ⟨h.trans g, h'.trans g'⟩

theorem blockLt_asymm {a b : IpAddrBlock α} (h1 : blockLt a b) : ¬ blockLt b a := by
  rintro (g | ⟨g, g'⟩) <;> rcases h1 with h | ⟨h, h'⟩
  · exact lt_asymm h g
  · exact absurd (h ▸ g) (lt_irrefl _)
  · exact absurd (g ▸ h) (lt_irrefl _)
  · exact lt_asymm h' g'

theorem blockLt_irrefl (a : IpAddrBlock α) : ¬ blockLt a a := fun h =>
  blockLt_asymm h h

theorem blockLt_total {a b : IpAddrBlock α} (h : a ≠ b) :
    blockLt a b ∨ blockLt b a := by
  rcases g : blockCmp a b with _ | _ | _
  · exact Or.inl (blockCmp_eq_lt_iff.1 g)
  · exact absurd (blockCmp_eq_eq_iff.1 g) h
  · exact Or.inr (blockCmp_eq_gt_iff.1 g)

end IpAddrBlock

open IpAddrBlock

/-- Claim C2 (exact statement, refuted): the claim asserts that the point
comparator returns `Less` iff the coordinate is **below** `start`.  On the
source, `Less` is returned when the *block* is below the coordinate, i.e.
when the coordinate is above `end`; the valid block `[0, 1]` compared
against the coordinate `5` yields `Less` although `5 < 0` is false. -/
theorem c2_point_comparator_cex :
    ¬ (((⟨0, 1⟩ : IpAddrBlock ℕ).compareToPoint 5 = some .lt) ↔
        (5 : ℕ) < (⟨0, 1⟩ : IpAddrBlock ℕ).start) := by
  decide

/-- Claim C2, amended: for every valid block (`start ≤ end`) and coordinate
`c`, the point comparator returns `Equal` iff `start ≤ c ≤ end`, `Less` iff
`c > end`, and `Greater` iff `c < start`.  (The claim as written had the
`Less` and `Greater` cases swapped: the comparator orders the *block*
relative to the coordinate, not the coordinate relative to the block.) -/
theorem c2_point_comparator (b : IpAddrBlock α) (c : α) (h : b.start ≤ b.stop) :
    (b.compareToPoint c = some .eq ↔ (b.start ≤ c ∧ c ≤ b.stop)) ∧
    (b.compareToPoint c = some .lt ↔ b.stop < c) ∧
    (b.compareToPoint c = some .gt ↔ c < b.start) := by
  unfold IpAddrBlock.compareToPoint IpAddrBlock.containsAddr
  by_cases hc : b.start ≤ c ∧ c ≤ b.stop
  · refine ⟨by simp [hc], ?_, ?_⟩
    · simp [hc, not_lt.2 hc.2]
    · simp [hc, not_lt.2 hc.1]
  · by_cases hl : b.stop < c
    · refine ⟨by simp [hc, hl], by simp [hc, hl], ?_⟩
      have hg : ¬ c < b.start := not_lt.2 (h.trans hl.le)
      simp [hc, hl, hg]
    · have hg : c < b.start := by
        rcases not_and_or.1 hc with h' | h'
        · exact not_le.1 h'
        · exact absurd (not_le.1 h') hl
      exact ⟨by simp [hc, hl, hg], by simp [hc, hl, hg], by simp [hc, hl, hg]⟩

/-- Witness for `c2_point_comparator` at the valid block `[1, 3]` and the
coordinate `2`. -/
theorem c2_point_comparator_witness :
    (((⟨1, 3⟩ : IpAddrBlock ℕ).compareToPoint 2 = some .eq ↔
        ((1 : ℕ) ≤ 2 ∧ (2 : ℕ) ≤ 3)) ∧
      ((⟨1, 3⟩ : IpAddrBlock ℕ).compareToPoint 2 = some .lt ↔ (3 : ℕ) < 2) ∧
      ((⟨1, 3⟩ : IpAddrBlock ℕ).compareToPoint 2 = some .gt ↔ (2 : ℕ) < 1)) :=
  c2_point_comparator ⟨1, 3⟩ 2 (by decide)

/-! ### Binary search

`slice::binary_search_by` bisects `[left, right)` with
`mid = left + (right - left) / 2`, moving `left` past `mid` on `Less`,
`right` down to `mid` on `Greater`, and returning `Ok(mid)` on `Equal`;
when the window empties it returns `Err(left)`.  The `fuel` argument makes
the recursion structural (so that concrete runs reduce); every call supplies
fuel of at least `right - left`, which is enough for the loop to finish. -/

def bsGo {β : Type} (f : β → Ordering) (l : List β) : Nat → Nat → Nat → Except Nat Nat
  | 0, left, _ => .error left
  | fuel + 1, left, right =>
    if left < right then
      match l.get? (left + (right - left) / 2) with
      | none => .error left
      | some x =>
        match f x with
        | .lt => bsGo f l fuel (left + (right - left) / 2 + 1) right
        | .gt => bsGo f l fuel left (left + (right - left) / 2)
        | .eq => .ok (left + (right - left) / 2)
    else .error left

/-- `slice::binary_search_by` over the whole slice. -/
def binarySearchBy {β : Type} (f : β → Ordering) (l : List β) : Except Nat Nat :=
  bsGo f l l.length 0 l.length

/-- Rank of an `Ordering`, used to state that a comparator is monotone along
a list (the precondition for binary search to be exhaustive). -/
def ordRank : Ordering → Nat
  | .lt => 0
  | .eq => 1
  | .gt => 2

/-- The comparator `f` is monotone (`Less` entries, then `Equal` entries,
then `Greater` entries) along `l`. -/
def SearchMono {β : Type} (f : β → Ordering) (l : List β) : Prop :=
  ∀ i j : Fin l.length, (i : Nat) ≤ (j : Nat) →
    ordRank (f (l.get i)) ≤ ordRank (f (l.get j))

theorem ordRank_lt {o o' : Ordering} (h : ordRank o ≤ ordRank o') (h' : o' = .lt) :
    o = .lt := by
  subst h'
  cases o <;> simp [ordRank] at h ⊢

theorem ordRank_gt {o o' : Ordering} (h : ordRank o ≤ ordRank o') (h' : o = .gt) :
    o' = .gt := by
  subst h'
  cases o' <;> simp [ordRank] at h ⊢

/-- Soundness of the bisection loop: an `Ok(i)` result always points at an
in-bounds element on which the comparator returned `Equal` (no sortedness
assumptions needed). -/
theorem bsGo_ok {β : Type} (f : β → Ordering) (l : List β) :
    ∀ fuel left right i, bsGo f l fuel left right = .ok i →
      ∃ h : i < l.length, f (l.get ⟨i, h⟩) = .eq := by
  intro fuel
  induction fuel with
  | zero =>
    intro left right i h
    simp [bsGo] at h
  | succ fuel ih =>
    intro left right i h
    rw [bsGo] at h
    split at h
    · split at h
      · cases h
      · rename_i x hg
        obtain ⟨hlen, hget⟩ := List.get?_eq_some.1 hg
        split at h
        · exact ih _ _ _ h
        · exact ih _ _ _ h
        · rename_i hf
          cases h
          exact ⟨hlen, hget.symm ▸ hf⟩
    · cases h

/-- The bisection loop with a monotone comparator: a failed search proves
the comparator never returned `Equal` anywhere, and the returned insertion
point `j` splits the list into a `Less` prefix and a `Greater` suffix. -/
theorem bsGo_err {β : Type} (f : β → Ordering) (l : List β) (hm : SearchMono f l) :
    ∀ fuel left right j, right - left ≤ fuel → left ≤ right → right ≤ l.length →
      (∀ k (hk : k < l.length), k < left → f (l.get ⟨k, hk⟩) = .lt) →
      (∀ k (hk : k < l.length), right ≤ k → f (l.get ⟨k, hk⟩) = .gt) →
      bsGo f l fuel left right = .error j →
      j ≤ l.length ∧
      (∀ k (hk : k < l.length), k < j → f (l.get ⟨k, hk⟩) = .lt) ∧
      (∀ k (hk : k < l.length), j ≤ k → f (l.get ⟨k, hk⟩) = .gt) := by
  intro fuel
  induction fuel with
  | zero =>
    intro left right j hfuel hlr hrl hL hR h
    have hrleq : right = left := by omega
    simp only [bsGo] at h
    cases h
    subst hrleq
    refine ⟨le_trans hlr hrl, hL, ?_⟩
    intro k hk hjk
    exact hR k hk hjk
  | succ fuel ih =>
    intro left right j hfuel hlr hrl hL hR h
    rw [bsGo] at h
    split at h
    · rename_i hlt
      have hmidlt : left + (right - left) / 2 < right := by omega
      have hmidge : left ≤ left + (right - left) / 2 := by omega
      have hmidlen : left + (right - left) / 2 < l.length := lt_of_lt_of_le hmidlt hrl
      split at h
      · rename_i hg
        rw [List.get?_eq_get hmidlen] at hg
        simp at hg
      · rename_i x hg
        obtain ⟨hmidlen', hget⟩ := List.get?_eq_some.1 hg
        split at h
        · rename_i hf
          refine ih (left + (right - left) / 2 + 1) right j (by omega) (by omega)
            hrl ?_ hR h
          intro k hk hkle
          have hrank : ordRank (f (l.get ⟨k, hk⟩)) ≤
              ordRank (f (l.get ⟨left + (right - left) / 2, hmidlen'⟩)) :=
            hm ⟨k, hk⟩ ⟨left + (right - left) / 2, hmidlen'⟩
              (show k ≤ left + (right - left) / 2 by omega)
          exact ordRank_lt hrank (hget.symm ▸ hf)
        · rename_i hf
          refine ih left (left + (right - left) / 2) j (by omega) (by omega)
            (le_trans hmidlt.le hrl) hL ?_ h
          intro k hk hkge
          have hrank : ordRank (f (l.get ⟨left + (right - left) / 2, hmidlen'⟩)) ≤
              ordRank (f (l.get ⟨k, hk⟩)) :=
            hm ⟨left + (right - left) / 2, hmidlen'⟩ ⟨k, hk⟩
              (show left + (right - left) / 2 ≤ k by omega)
          exact ordRank_gt hrank (hget.symm ▸ hf)
        · cases h
    · rename_i hnlt
      have hrleq : right = left := by omega
      cases h
      subst hrleq
      refine ⟨le_trans hlr hrl, hL, ?_⟩
      intro k hk hjk
      exact hR k hk hjk

/-- `binary_search_by` with a monotone comparator: `Err(j)` splits the list
into a strict `Less` prefix and a `Greater` suffix (so in particular no
element compares `Equal`). -/
theorem binarySearchBy_err {β : Type} {f : β → Ordering} {l : List β}
    (hm : SearchMono f l) {j : Nat} (h : binarySearchBy f l = .error j) :
    j ≤ l.length ∧
    (∀ k (hk : k < l.length), k < j → f (l.get ⟨k, hk⟩) = .lt) ∧
    (∀ k (hk : k < l.length), j ≤ k → f (l.get ⟨k, hk⟩) = .gt) := by
  refine bsGo_err f l hm l.length 0 l.length j (by omega) (by omega) le_rfl ?_ ?_ h
  · intro k hk hk0
    exact absurd hk0 (Nat.not_lt_zero k)
  · intro k hk hlen
    exact absurd hk (not_lt.2 hlen)

/-- `binary_search_by` soundness, stated on the wrapper. -/
theorem binarySearchBy_ok {β : Type} {f : β → Ordering} {l : List β} {i : Nat}
    (h : binarySearchBy f l = .ok i) :
    ∃ h : i < l.length, f (l.get ⟨i, h⟩) = .eq :=
  bsGo_ok f l l.length 0 l.length i h

/-! ### The interval map -/

/-- `IpAddrBlockMap<A, T>`: the inner vector of `(block, value)` entries plus
the `dirty` flag (`true` means "pending normalization"). -/
structure IpAddrBlockMap (α τ : Type) where
  inner : List (IpAddrBlock α × τ)
  dirty : Bool
deriving DecidableEq

/-- Strict ordering of entries by the derived block order (the sort key
`(b.0, b.1)` of `normalize`); `Pairwise entryLt` is the "sorted with no
duplicate ranges" half of the normalized-map invariant. -/
def entryLt (e1 e2 : IpAddrBlock α × τ) : Prop :=
  blockLt e1.1 e2.1

/-- Non-strict ordering of entries by the sort key, i.e. the comparison the
sort performed by `normalize` establishes. -/
def entryLe (e1 e2 : IpAddrBlock α × τ) : Prop :=
  blockCmp e1.1 e2.1 ≠ Ordering.gt

instance : DecidableRel (entryLt : IpAddrBlock α × τ → IpAddrBlock α × τ → Prop) := fun _ _ =>
  inferInstanceAs (Decidable (_ ∨ _))

instance : DecidableRel (entryLe : IpAddrBlock α × τ → IpAddrBlock α × τ → Prop) := fun _ _ =>
  inferInstanceAs (Decidable (¬ _))

instance : IsTotal (IpAddrBlock α × τ) entryLe where
  total a b := by
    unfold entryLe
    rcases h : blockCmp a.1 b.1 with _ | _ | _
    · exact Or.inl (by simp)
    · exact Or.inl (by simp)
    · refine Or.inr ?_
      rw [Ne, blockCmp_eq_gt_iff]
      exact blockLt_asymm (blockCmp_eq_gt_iff.1 h)

instance : IsTrans (IpAddrBlock α × τ) entryLe where
  trans a b c hab hbc := by
    unfold entryLe at *
    rw [Ne, blockCmp_eq_gt_iff] at hab hbc ⊢
    intro hca
    rcases @IpAddrBlock.blockLt_total _ _ a.1 b.1
      (fun h => hbc (h ▸ hca)) with h | h
    · exact hbc (blockLt_trans hca h)
    · exact hab h

instance : IsAntisymm (IpAddrBlock α × τ) entryLt where
  antisymm _ _ hab hba := absurd hba (blockLt_asymm hab)

theorem entryLt_trans {e1 e2 e3 : IpAddrBlock α × τ} (h1 : entryLt e1 e2)
    (h2 : entryLt e2 e3) : entryLt e1 e3 :=
  blockLt_trans h1 h2

theorem entryLe_of_entryLt {e1 e2 : IpAddrBlock α × τ} (h : entryLt e1 e2) :
    entryLe e1 e2 := by
  unfold entryLe
  rw [Ne, blockCmp_eq_gt_iff]
  exact blockLt_asymm h

theorem entryLt_of_entryLe_of_ne {e1 e2 : IpAddrBlock α × τ} (hle : entryLe e1 e2)
    (hne : e1.1 ≠ e2.1) : entryLt e1 e2 := by
  unfold entryLe at hle
  rw [Ne, blockCmp_eq_gt_iff] at hle
  exact (IpAddrBlock.blockLt_total hne).resolve_right hle

namespace IpAddrBlockMap

/-- `IpAddrBlockMap::new()`: empty and normalized.  (`with_capacity` differs
only in reserved storage, which has no observable counterpart here.) -/
def new : IpAddrBlockMap α τ :=
  { inner := [], dirty := false }

/-- The exact-range search `binary_search_by_key(&block, |(b, _)| *b)`:
binary search comparing each entry's block to the target with the derived
(lexicographic) `Ord`. -/
def blockSearch (l : List (IpAddrBlock α × τ)) (block : IpAddrBlock α) :
    Except Nat Nat :=
  binarySearchBy (fun e => blockCmp e.1 block) l

/-- `IpAddrBlockMap::get_from_address`: binary search with the point
comparator, then `self.inner.get(index.ok()?).map(|(_, v)| v)`.  The
`debug_assert!(!self.dirty, ..)` is a debug-build-only check and has no
release-build behavior to model. -/
def get_from_address (m : IpAddrBlockMap α τ) (address : α) : Option τ :=
  match binarySearchBy (fun e => pointCmp e.1 address) m.inner with
  | .ok i => (m.inner.get? i).map Prod.snd
  | .error _ => none

/-- `Vec::swap_remove(i)`: replace the element at `i` with the last element
and shrink by one ( `i` is always in bounds at the call sites, coming from a
successful binary search). -/
def swapRemove {β : Type} (l : List β) (i : Nat) : List β :=
  match l.getLast? with
  | none => l
  | some a => (l.set i a).dropLast

/-- `Vec::dedup_by(same_bucket)`: remove all but the first of each run of
consecutive elements on which `same_bucket(next, kept)` holds.  `dedupGo`
carries the most recently kept element. -/
def dedupGo {β : Type} (r : β → β → Bool) (cur : β) : List β → List β
  | [] => [cur]
  | b :: l => if r b cur then dedupGo r cur l else cur :: dedupGo r b l

/-- See `dedupGo`. -/
def dedupBy {β : Type} (r : β → β → Bool) : List β → List β
  | [] => []
  | a :: l => dedupGo r a l

/-- `IpAddrBlockMap::normalize`: first `dedup_by(|(a, _), (b, _)| a == b)`
(adjacent entries with equal blocks collapse to the first), **then**
`sort_unstable_by_key(|(b, _)| (b.0, b.1))`, then `shrink_to_fit` (no
observable effect) and clear `dirty`.  The source's unstable sort is
modelled by `insertionSort` over the same key ordering; the two coincide
whenever entries with equal keys are identical or keys are pairwise
distinct, which covers every situation the claims quantify over (an
unstable sort leaves the relative order of distinct same-key entries
unspecified, so no claim about it can be decided either way). -/
def normalize (m : IpAddrBlockMap α τ) : IpAddrBlockMap α τ :=
  { inner := List.insertionSort entryLe
      (dedupBy (fun a b => decide (a.1 = b.1)) m.inner),
    dirty := false }

/-- `IpAddrBlockMap::insert_unstable`: when `dirty` the search is skipped
(`Err(0)`); otherwise an exact-range binary search runs, and a hit is
`swap_remove`d and its value returned.  The new entry is pushed at the end
and the map is marked `dirty`. -/
def insert_unstable (m : IpAddrBlockMap α τ) (block : IpAddrBlock α) (value : τ) :
    IpAddrBlockMap α τ × Option τ :=
  match if m.dirty then Except.error 0 else blockSearch m.inner block with
  | .ok i =>
    ({ inner := swapRemove m.inner i ++ [(block, value)], dirty := true },
      (m.inner.get? i).map Prod.snd)
  | .error _ =>
    ({ inner := m.inner ++ [(block, value)], dirty := true }, none)

/-- `IpAddrBlockMap::remove_unstable`: exact-range binary search, then
`swap_remove` of the hit; the `dirty` flag is **not** touched.  (The
`debug_assert!(!self.dirty, ..)` is a debug-build-only check.) -/
def remove_unstable (m : IpAddrBlockMap α τ) (block : IpAddrBlock α) :
    IpAddrBlockMap α τ × Option τ :=
  match blockSearch m.inner block with
  | .ok i =>
    ({ m with inner := swapRemove m.inner i }, (m.inner.get? i).map Prod.snd)
  | .error _ => (m, none)

/-- `IpAddrBlockMap::insert`: normalize first when dirty, then exact-range
binary search; a hit is overwritten in place (`mem::replace`) returning the
previous value, a miss is inserted at the returned position
(`Vec::insert`, modelled as `take ++ [entry] ++ drop`). -/
def insert (m : IpAddrBlockMap α τ) (block : IpAddrBlock α) (value : τ) :
    IpAddrBlockMap α τ × Option τ :=
  let m' := if m.dirty then m.normalize else m
  match blockSearch m'.inner block with
  | .ok i =>
    ({ m' with inner := m'.inner.set i (block, value) },
      (m'.inner.get? i).map Prod.snd)
  | .error i =>
    ({ m' with inner := m'.inner.take i ++ (block, value) :: m'.inner.drop i },
      none)

end IpAddrBlockMap

/-! ### Comparator characterizations and monotonicity -/

theorem pointCmp_eq_iff {b : IpAddrBlock α} {x : α} :
    pointCmp b x = .eq ↔ b.containsAddr x := by
  unfold IpAddrBlock.pointCmp IpAddrBlock.compareToPoint
  by_cases hc : b.containsAddr x
  · simp [hc]
  · by_cases hl : b.stop < x
    · simp [hc, hl]
    · by_cases hg : x < b.start
      · simp [hc, hl, hg]
      · exact absurd ⟨le_of_not_lt hg, le_of_not_lt hl⟩ hc

theorem pointCmp_lt_iff {b : IpAddrBlock α} {x : α} :
    pointCmp b x = .lt ↔ b.stop < x := by
  unfold IpAddrBlock.pointCmp IpAddrBlock.compareToPoint
  by_cases hc : b.containsAddr x
  · have hx : ¬ b.stop < x := not_lt.2 hc.2
    simp [hc, hx]
  · by_cases hl : b.stop < x
    · simp [hc, hl]
    · by_cases hg : x < b.start
      · simp [hc, hl, hg]
      · exact absurd ⟨le_of_not_lt hg, le_of_not_lt hl⟩ hc

theorem ordRank_le_two (o : Ordering) : ordRank o ≤ 2 := by
  cases o <;> simp [ordRank]

/-- A strictly sorted entry list makes the exact-range comparator monotone,
so binary search by block key is exhaustive on a normalized map. -/
theorem searchMono_blockCmp {l : List (IpAddrBlock α × τ)} (hs : l.Pairwise entryLt)
    (b : IpAddrBlock α) : SearchMono (fun e => blockCmp e.1 b) l := by
  intro i j hij
  rcases eq_or_lt_of_le hij with heq | hlt
  · rw [Fin.ext heq]
  · have hij' : entryLt (l.get i) (l.get j) := List.pairwise_iff_get.1 hs i j hlt
    show ordRank (blockCmp (l.get i).1 b) ≤ ordRank (blockCmp (l.get j).1 b)
    rcases hcj : blockCmp (l.get j).1 b with _ | _ | _
    · have hi : blockCmp (l.get i).1 b = .lt :=
        blockCmp_eq_lt_iff.2 (blockLt_trans hij' (blockCmp_eq_lt_iff.1 hcj))
      rw [hi]
    · have hi : blockCmp (l.get i).1 b = .lt :=
        blockCmp_eq_lt_iff.2 (blockCmp_eq_eq_iff.1 hcj ▸ hij')
      rw [hi]
      simp [ordRank]
    · exact ordRank_le_two _

/-- Two blocks are disjoint when their inclusive spans share no address. -/
def IpAddrBlock.disjoint (a b : IpAddrBlock α) : Prop :=
  a.stop < b.start ∨ b.stop < a.start

instance (a b : IpAddrBlock α) : Decidable (a.disjoint b) :=
  inferInstanceAs (Decidable (_ ∨ _))

/-- On a strictly sorted list of valid, pairwise disjoint blocks, an earlier
entry ends strictly before a later entry begins. -/
theorem gap_of_sorted {l : List (IpAddrBlock α × τ)} (hs : l.Pairwise entryLt)
    (hv : ∀ e ∈ l, e.1.start ≤ e.1.stop)
    (hd : l.Pairwise (fun e1 e2 => e1.1.disjoint e2.1))
    {i j : Fin l.length} (hlt : (i : Nat) < (j : Nat)) :
    (l.get i).1.stop < (l.get j).1.start := by
  have hlt' : entryLt (l.get i) (l.get j) := List.pairwise_iff_get.1 hs i j hlt
  have hd' := List.pairwise_iff_get.1 hd i j hlt
  rcases hd' with h | h
  · exact h
  · have hvj := hv _ (l.get_mem j.1 j.2)
    have hss : (l.get i).1.start ≤ (l.get j).1.start := by
      rcases hlt' with h' | ⟨h', _⟩
      · exact le_of_lt h'
      · exact le_of_eq h'
    exact absurd (lt_of_lt_of_le (lt_of_lt_of_le h hss) hvj) (lt_irrefl _)

/-- A strictly sorted list of valid, pairwise disjoint blocks makes the
point comparator monotone, so the address binary search is exhaustive. -/
theorem searchMono_pointCmp {l : List (IpAddrBlock α × τ)} (hs : l.Pairwise entryLt)
    (hv : ∀ e ∈ l, e.1.start ≤ e.1.stop)
    (hd : l.Pairwise (fun e1 e2 => e1.1.disjoint e2.1)) (x : α) :
    SearchMono (fun e => pointCmp e.1 x) l := by
  intro i j hij
  rcases eq_or_lt_of_le hij with heq | hlt
  · rw [Fin.ext heq]
  · have hgap := gap_of_sorted hs hv hd hlt
    show ordRank (pointCmp (l.get i).1 x) ≤ ordRank (pointCmp (l.get j).1 x)
    rcases hcj : pointCmp (l.get j).1 x with _ | _ | _
    · have hvj := hv _ (l.get_mem j.1 j.2)
      have hi : pointCmp (l.get i).1 x = .lt :=
        pointCmp_lt_iff.2 (lt_trans hgap (lt_of_le_of_lt hvj (pointCmp_lt_iff.1 hcj)))
      rw [hi]
    · have hi : pointCmp (l.get i).1 x = .lt :=
        pointCmp_lt_iff.2 (lt_of_lt_of_le hgap (pointCmp_eq_iff.1 hcj).1)
      rw [hi]
      simp [ordRank]
    · exact ordRank_le_two _

/-! Branch equations for the map operations, used to reduce goals. -/

theorem insert_unstable_dirty_eq (m : IpAddrBlockMap α τ) (hd : m.dirty = true)
    (b : IpAddrBlock α) (v : τ) :
    m.insert_unstable b v =
      ({ inner := m.inner ++ [(b, v)], dirty := true }, none) := by
  unfold IpAddrBlockMap.insert_unstable
  rw [hd]
  rfl

theorem insert_unstable_clean_ok_eq (m : IpAddrBlockMap α τ) (hd : m.dirty = false)
    (b : IpAddrBlock α) (v : τ) {i : Nat}
    (hbs : IpAddrBlockMap.blockSearch m.inner b = .ok i) :
    m.insert_unstable b v =
      ({ inner := IpAddrBlockMap.swapRemove m.inner i ++ [(b, v)], dirty := true },
        (m.inner.get? i).map Prod.snd) := by
  unfold IpAddrBlockMap.insert_unstable
  rw [hd, hbs]
  rfl

theorem insert_unstable_clean_err_eq (m : IpAddrBlockMap α τ) (hd : m.dirty = false)
    (b : IpAddrBlock α) (v : τ) {j : Nat}
    (hbs : IpAddrBlockMap.blockSearch m.inner b = .error j) :
    m.insert_unstable b v =
      ({ inner := m.inner ++ [(b, v)], dirty := true }, none) := by
  unfold IpAddrBlockMap.insert_unstable
  rw [hd, hbs]
  rfl

theorem remove_unstable_ok_eq (m : IpAddrBlockMap α τ) (b : IpAddrBlock α) {i : Nat}
    (hbs : IpAddrBlockMap.blockSearch m.inner b = .ok i) :
    m.remove_unstable b =
      ({ m with inner := IpAddrBlockMap.swapRemove m.inner i },
        (m.inner.get? i).map Prod.snd) := by
  unfold IpAddrBlockMap.remove_unstable
  rw [hbs]

theorem remove_unstable_err_eq (m : IpAddrBlockMap α τ) (b : IpAddrBlock α) {j : Nat}
    (hbs : IpAddrBlockMap.blockSearch m.inner b = .error j) :
    m.remove_unstable b = (m, none) := by
  unfold IpAddrBlockMap.remove_unstable
  rw [hbs]

theorem insert_clean_ok_eq (m : IpAddrBlockMap α τ) (hd : m.dirty = false)
    (b : IpAddrBlock α) (v : τ) {i : Nat}
    (hbs : IpAddrBlockMap.blockSearch m.inner b = .ok i) :
    m.insert b v =
      ({ m with inner := m.inner.set i (b, v) }, (m.inner.get? i).map Prod.snd) := by
  unfold IpAddrBlockMap.insert
  rw [hd]
  show (match IpAddrBlockMap.blockSearch m.inner b with
    | .ok i => ({ m with inner := m.inner.set i (b, v) },
        (m.inner.get? i).map Prod.snd)
    | .error i =>
      ({ m with inner := m.inner.take i ++ (b, v) :: m.inner.drop i }, none)) = _
  rw [hbs]
  simp [hd]

theorem insert_clean_err_eq (m : IpAddrBlockMap α τ) (hd : m.dirty = false)
    (b : IpAddrBlock α) (v : τ) {j : Nat}
    (hbs : IpAddrBlockMap.blockSearch m.inner b = .error j) :
    m.insert b v =
      ({ m with inner := m.inner.take j ++ (b, v) :: m.inner.drop j }, none) := by
  unfold IpAddrBlockMap.insert
  rw [hd]
  show (match IpAddrBlockMap.blockSearch m.inner b with
    | .ok i => ({ m with inner := m.inner.set i (b, v) },
        (m.inner.get? i).map Prod.snd)
    | .error i =>
      ({ m with inner := m.inner.take i ++ (b, v) :: m.inner.drop i }, none)) = _
  rw [hbs]
  simp [hd]

theorem get_from_address_ok_eq (m : IpAddrBlockMap α τ) (x : α) {i : Nat}
    (hbs : binarySearchBy (fun e => pointCmp e.1 x) m.inner = .ok i) :
    m.get_from_address x = (m.inner.get? i).map Prod.snd := by
  unfold IpAddrBlockMap.get_from_address
  rw [hbs]

theorem get_from_address_err_eq (m : IpAddrBlockMap α τ) (x : α) {j : Nat}
    (hbs : binarySearchBy (fun e => pointCmp e.1 x) m.inner = .error j) :
    m.get_from_address x = none := by
  unfold IpAddrBlockMap.get_from_address
  rw [hbs]

/-- Claim C6: `insert_unstable` always appends the new entry at the end and
marks the map pending; a previous value is reported only when the map was
clean (`dirty = false`) immediately before the call and an entry with that
exact range was present; and once the map is pending it always reports
`none`, even if an entry with that exact range is present. -/
theorem c6_insert_unstable (m : IpAddrBlockMap α τ) (b : IpAddrBlock α) (v : τ) :
    (∃ l', (m.insert_unstable b v).1.inner = l' ++ [(b, v)] ∧
      ((m.insert_unstable b v).2 = none → l' = m.inner)) ∧
    (m.insert_unstable b v).1.dirty = true ∧
    (∀ t, (m.insert_unstable b v).2 = some t →
      m.dirty = false ∧ (b, t) ∈ m.inner) ∧
    (m.dirty = true → (m.insert_unstable b v).2 = none) := by
  cases hd : m.dirty
  · rcases hbs : IpAddrBlockMap.blockSearch m.inner b with j | i
    · rw [insert_unstable_clean_err_eq m hd b v hbs]
      refine ⟨⟨m.inner, rfl, fun _ => rfl⟩, rfl, ?_, ?_⟩
      · intro t ht
        cases ht
      · intro h
        cases h
    · obtain ⟨hilt, hieq⟩ := binarySearchBy_ok hbs
      rw [insert_unstable_clean_ok_eq m hd b v hbs, List.get?_eq_get hilt]
      refine ⟨⟨IpAddrBlockMap.swapRemove m.inner i, rfl, ?_⟩, rfl, ?_, ?_⟩
      · intro h
        cases h
      · intro t ht
        refine ⟨rfl, ?_⟩
        have hkey : (m.inner.get ⟨i, hilt⟩).1 = b := blockCmp_eq_eq_iff.1 hieq
        have hval : (m.inner.get ⟨i, hilt⟩).2 = t := by
          cases ht
          rfl
        have hent : m.inner.get ⟨i, hilt⟩ = (b, t) := by
          rw [Prod.ext_iff]
          exact ⟨hkey, hval⟩
        exact hent ▸ m.inner.get_mem i hilt
      · intro h
        exact Bool.noConfusion h
  · rw [insert_unstable_dirty_eq m hd b v]
    refine ⟨⟨m.inner, rfl, fun _ => rfl⟩, rfl, ?_, fun _ => rfl⟩
    intro t ht
    cases ht

/-- `swap_remove` at an in-bounds index: the removed element together with
the remaining entries is a permutation of the original vector. -/
theorem swapRemove_perm {β : Type} :
    ∀ (l : List β) (i : Nat) (h : i < l.length),
      List.Perm (l.get ⟨i, h⟩ :: IpAddrBlockMap.swapRemove l i) l := by
  intro l
  induction l with
  | nil =>
    intro i h
    cases h
  | cons x l ih =>
    intro i h
    cases l with
    | nil =>
      have hi : i = 0 := by
        simp at h
        omega
      subst hi
      have hsw : IpAddrBlockMap.swapRemove [x] 0 = [] := rfl
      rw [hsw]
      exact List.Perm.refl _
    | cons y l' =>
      have hne : (y :: l') ≠ [] := by simp
      have hLast : (x :: y :: l').getLast? = some ((y :: l').getLast hne) := by
        rw [List.getLast?_cons_cons, List.getLast?_eq_getLast _ hne]
      cases i with
      | zero =>
        have hsw : IpAddrBlockMap.swapRemove (x :: y :: l') 0 =
            (y :: l').getLast hne :: (y :: l').dropLast := by
          unfold IpAddrBlockMap.swapRemove
          rw [hLast]
          rfl
        rw [hsw]
        show List.Perm (x :: ((y :: l').getLast hne :: (y :: l').dropLast))
          (x :: y :: l')
        refine List.Perm.cons x ?_
        have hperm :=
          List.perm_append_singleton ((y :: l').getLast hne) ((y :: l').dropLast)
        rw [List.dropLast_concat_getLast hne] at hperm
        exact hperm.symm
      | succ i =>
        have hi : i < (y :: l').length := by
          simpa using h
        have hsw : IpAddrBlockMap.swapRemove (x :: y :: l') (i + 1) =
            x :: IpAddrBlockMap.swapRemove (y :: l') i := by
          unfold IpAddrBlockMap.swapRemove
          rw [hLast, List.getLast?_eq_getLast _ hne]
          show ((x :: y :: l').set (i + 1) ((y :: l').getLast hne)).dropLast
            = x :: (((y :: l').set i ((y :: l').getLast hne)).dropLast)
          rw [List.set_cons_succ]
          exact List.dropLast_cons_of_ne_nil (by simp)
        rw [hsw]
        show List.Perm
          ((y :: l').get ⟨i, hi⟩ :: (x :: IpAddrBlockMap.swapRemove (y :: l') i))
          (x :: y :: l')
        exact ((List.Perm.swap x _ _).trans (List.Perm.cons x (ih i hi)))

/-- A successful exact-range search points at an entry whose block equals
the searched block (no sortedness needed). -/
theorem blockSearch_ok {l : List (IpAddrBlock α × τ)} {b : IpAddrBlock α} {i : Nat}
    (h : IpAddrBlockMap.blockSearch l b = .ok i) :
    ∃ hi : i < l.length, (l.get ⟨i, hi⟩).1 = b := by
  obtain ⟨hi, he⟩ := binarySearchBy_ok h
  exact ⟨hi, blockCmp_eq_eq_iff.1 he⟩

/-- On a strictly sorted entry list a failed exact-range search proves the
block is absent. -/
theorem blockSearch_err {l : List (IpAddrBlock α × τ)} (hs : l.Pairwise entryLt)
    {b : IpAddrBlock α} {j : Nat} (h : IpAddrBlockMap.blockSearch l b = .error j) :
    ∀ e ∈ l, e.1 ≠ b := by
  obtain ⟨hjl, hL, hR⟩ := binarySearchBy_err (searchMono_blockCmp hs b) h
  intro e he heq
  obtain ⟨k, hget⟩ := List.mem_iff_get.1 he
  rcases lt_or_ge k.1 j with hkj | hkj
  · have hlt := hL k.1 k.2 hkj
    rw [Fin.eta, hget, heq] at hlt
    exact blockLt_irrefl b (blockCmp_eq_lt_iff.1 hlt)
  · have hgt := hR k.1 k.2 hkj
    rw [Fin.eta, hget, heq] at hgt
    exact blockLt_irrefl b (blockCmp_eq_gt_iff.1 hgt)

/-- On a strictly sorted entry list the entry found at a given block is the
unique entry carrying that block. -/
theorem sorted_key_unique {l : List (IpAddrBlock α × τ)} (hs : l.Pairwise entryLt)
    {i : Nat} (hi : i < l.length) {b : IpAddrBlock α} {t : τ}
    (hmem : (b, t) ∈ l) (hkey : (l.get ⟨i, hi⟩).1 = b) : l.get ⟨i, hi⟩ = (b, t) := by
  obtain ⟨k, hget⟩ := List.mem_iff_get.1 hmem
  rcases lt_trichotomy i k.1 with h | h | h
  · have hp := List.pairwise_iff_get.1 hs ⟨i, hi⟩ k h
    rw [hget] at hp
    exact absurd (hkey ▸ hp) (blockLt_irrefl b)
  · have hik : (⟨i, hi⟩ : Fin l.length) = k := Fin.ext h
    rw [hik, hget]
  · have hp := List.pairwise_iff_get.1 hs k ⟨i, hi⟩ h
    rw [hget] at hp
    exact absurd (hkey ▸ hp) (blockLt_irrefl b)

/-- Claim C7: on a normalized map (`dirty = false`, entries strictly sorted),
`remove_unstable` leaves the pending flag `false`; when it returns a value,
that `(range, value)` entry was present and the remaining entries are a
permutation of the original ones with exactly that entry removed; when it
returns `none`, no entry with that exact range existed and the map is
untouched. -/
theorem c7_remove_unstable (m : IpAddrBlockMap α τ) (b : IpAddrBlock α)
    (hd : m.dirty = false) (hs : m.inner.Pairwise entryLt) :
    (m.remove_unstable b).1.dirty = false ∧
    (∀ t, (m.remove_unstable b).2 = some t →
      (b, t) ∈ m.inner ∧
        List.Perm ((b, t) :: (m.remove_unstable b).1.inner) m.inner) ∧
    ((m.remove_unstable b).2 = none →
      (∀ t, (b, t) ∉ m.inner) ∧ (m.remove_unstable b).1 = m) := by
  rcases hbs : IpAddrBlockMap.blockSearch m.inner b with j | i
  · rw [remove_unstable_err_eq m b hbs]
    refine ⟨hd, ?_, ?_⟩
    · intro t ht
      cases ht
    · intro _
      exact ⟨fun t hmem => blockSearch_err hs hbs (b, t) hmem rfl, rfl⟩
  · obtain ⟨hi, hkey⟩ := blockSearch_ok hbs
    rw [remove_unstable_ok_eq m b hbs, List.get?_eq_get hi]
    refine ⟨hd, ?_, ?_⟩
    · intro t ht
      have hval : (m.inner.get ⟨i, hi⟩).2 = t := by
        cases ht
        rfl
      have hent : m.inner.get ⟨i, hi⟩ = (b, t) := by
        rw [Prod.ext_iff]
        exact ⟨hkey, hval⟩
      exact ⟨hent ▸ m.inner.get_mem i hi, hent ▸ swapRemove_perm m.inner i hi⟩
    · intro ht
      cases ht

/-- Witness for `c7_remove_unstable`: removing the middle range of a sorted
three-entry map returns its value `20`, with the other two entries kept. -/
theorem c7_remove_unstable_witness :
    (((⟨2, 3⟩ : IpAddrBlock ℕ), 20) ∈
        [((⟨0, 0⟩ : IpAddrBlock ℕ), 10), (⟨2, 3⟩, 20), (⟨5, 9⟩, 30)] ∧
      List.Perm (((⟨2, 3⟩ : IpAddrBlock ℕ), 20) ::
        ((IpAddrBlockMap.mk [((⟨0, 0⟩ : IpAddrBlock ℕ), 10), (⟨2, 3⟩, 20),
          (⟨5, 9⟩, 30)] false).remove_unstable ⟨2, 3⟩).1.inner)
        [((⟨0, 0⟩ : IpAddrBlock ℕ), 10), (⟨2, 3⟩, 20), (⟨5, 9⟩, 30)]) :=
  (c7_remove_unstable
    (IpAddrBlockMap.mk [(⟨0, 0⟩, 10), (⟨2, 3⟩, 20), (⟨5, 9⟩, 30)] false) ⟨2, 3⟩
    rfl (by decide)).2.1 20 (by decide)

/-- One sorted `insert` into a clean, strictly sorted map whose entries all
avoid the inserted block: the map stays clean and strictly sorted, and the
entries gain exactly the new pair. -/
theorem insert_step {m : IpAddrBlockMap α τ} (hd : m.dirty = false)
    (hs : m.inner.Pairwise entryLt) (b : IpAddrBlock α) (v : τ)
    (hnotin : ∀ e ∈ m.inner, e.1 ≠ b) :
    (m.insert b v).1.dirty = false ∧
    ((m.insert b v).1.inner).Pairwise entryLt ∧
    List.Perm (m.insert b v).1.inner ((b, v) :: m.inner) := by
  rcases hbs : IpAddrBlockMap.blockSearch m.inner b with j | i
  · obtain ⟨hjl, hL, hR⟩ := binarySearchBy_err (searchMono_blockCmp hs b) hbs
    rw [insert_clean_err_eq m hd b v hbs]
    refine ⟨hd, ?_, ?_⟩
    · rw [List.pairwise_append]
      refine ⟨List.Pairwise.sublist (List.take_sublist j _) hs, ?_, ?_⟩
      · rw [List.pairwise_cons]
        refine ⟨?_, List.Pairwise.sublist (List.drop_sublist j _) hs⟩
        intro e he
        obtain ⟨kk, hm, hget⟩ := List.mem_drop_iff_getElem.1 he
        have hgt := hR (j + kk) (by omega) (by omega)
        rw [List.get_eq_getElem] at hgt
        rw [hget] at hgt
        exact blockCmp_eq_gt_iff.1 hgt
      · intro a ha e he
        obtain ⟨ka, hma, hgeta⟩ := List.mem_take_iff_getElem.1 ha
        have hka : ka < j ∧ ka < m.inner.length := by
          constructor <;> omega
        have hlt := hL ka hka.2 hka.1
        rw [List.get_eq_getElem] at hlt
        rw [hgeta] at hlt
        have hab : blockLt a.1 b := blockCmp_eq_lt_iff.1 hlt
        rcases List.mem_cons.1 he with rfl | he'
        · exact hab
        · obtain ⟨kk, hm, hget⟩ := List.mem_drop_iff_getElem.1 he'
          have hgt := hR (j + kk) (by omega) (by omega)
          rw [List.get_eq_getElem] at hgt
          rw [hget] at hgt
          exact blockLt_trans hab (blockCmp_eq_gt_iff.1 hgt)
    · have hmid : List.Perm (m.inner.take j ++ (b, v) :: m.inner.drop j)
          ((b, v) :: (m.inner.take j ++ m.inner.drop j)) := List.perm_middle
      rw [List.take_append_drop] at hmid
      exact hmid
  · obtain ⟨hi, hkey⟩ := blockSearch_ok hbs
    exact absurd hkey (hnotin _ (m.inner.get_mem i hi))

/-- Building a map by repeated sorted `insert` of entries with pairwise
distinct, fresh blocks keeps the map clean and strictly sorted, and the
final entries are a permutation of the inserted ones plus the initial
ones. -/
theorem foldl_insert_spec (ps : List (IpAddrBlock α × τ)) :
    ∀ (m : IpAddrBlockMap α τ), m.dirty = false → m.inner.Pairwise entryLt →
      (∀ e ∈ ps, ∀ e' ∈ m.inner, e'.1 ≠ e.1) →
      ps.Pairwise (fun e1 e2 => e1.1 ≠ e2.1) →
      (ps.foldl (fun m e => (m.insert e.1 e.2).1) m).dirty = false ∧
      ((ps.foldl (fun m e => (m.insert e.1 e.2).1) m).inner).Pairwise entryLt ∧
      List.Perm ((ps.foldl (fun m e => (m.insert e.1 e.2).1) m).inner)
        (ps ++ m.inner) := by
  induction ps with
  | nil =>
    intro m hd hs _ _
    exact ⟨hd, hs, List.Perm.refl _⟩
  | cons e ps ih =>
    intro m hd hs hfresh hdist
    have hstep := insert_step hd hs e.1 e.2
      (fun e' he' => hfresh e (List.mem_cons_self e ps) e' he')
    obtain ⟨hd', hs', hp'⟩ := hstep
    have hfresh' : ∀ e'' ∈ ps, ∀ e' ∈ (m.insert e.1 e.2).1.inner, e'.1 ≠ e''.1 := by
      intro e'' he'' e' he'
      rcases List.mem_cons.1 (hp'.subset he') with rfl | hmem
      · exact (List.pairwise_cons.1 hdist).1 e'' he''
      · exact hfresh e'' (List.mem_cons_of_mem e he'') e' hmem
    have hrec := ih (m.insert e.1 e.2).1 hd' hs' hfresh'
      (List.pairwise_cons.1 hdist).2
    refine ⟨hrec.1, hrec.2.1, ?_⟩
    show List.Perm
      ((ps.foldl (fun m e => (m.insert e.1 e.2).1) (m.insert e.1 e.2).1).inner)
      ((e :: ps) ++ m.inner)
    exact hrec.2.2.trans ((List.Perm.append_left ps hp').trans List.perm_middle)

/-- On a list of pairwise disjoint blocks, an entry found to contain an
address is the unique listed entry whose block contains that address. -/
theorem sorted_point_unique {l : List (IpAddrBlock α × τ)}
    (hd : l.Pairwise (fun e1 e2 => e1.1.disjoint e2.1))
    {i : Nat} (hi : i < l.length) {b : IpAddrBlock α} {t : τ} {x : α}
    (hmem : (b, t) ∈ l) (hbx : b.containsAddr x)
    (hix : (l.get ⟨i, hi⟩).1.containsAddr x) : l.get ⟨i, hi⟩ = (b, t) := by
  obtain ⟨k, hget⟩ := List.mem_iff_get.1 hmem
  rcases lt_trichotomy i k.1 with h | h | h
  · have hp := List.pairwise_iff_get.1 hd ⟨i, hi⟩ k h
    rw [hget] at hp
    rcases hp with h' | h'
    · exact absurd (lt_of_lt_of_le (lt_of_le_of_lt hix.2 h') hbx.1)
        (lt_irrefl x)
    · exact absurd (lt_of_lt_of_le (lt_of_le_of_lt hbx.2 h') hix.1)
        (lt_irrefl x)
  · have hik : (⟨i, hi⟩ : Fin l.length) = k := Fin.ext h
    rw [hik, hget]
  · have hp := List.pairwise_iff_get.1 hd k ⟨i, hi⟩ h
    rw [hget] at hp
    rcases hp with h' | h'
    · exact absurd (lt_of_lt_of_le (lt_of_le_of_lt hbx.2 h') hix.1)
        (lt_irrefl x)
    · exact absurd (lt_of_lt_of_le (lt_of_le_of_lt hix.2 h') hbx.1)
        (lt_irrefl x)

/-- `get_from_address` on a clean map whose entries are strictly sorted,
valid and pairwise disjoint: an address inside a stored block yields that
block's value, and an address inside no stored block yields `none`. -/
theorem get_from_address_spec {m : IpAddrBlockMap α τ}
    (hs : m.inner.Pairwise entryLt)
    (hv : ∀ e ∈ m.inner, e.1.start ≤ e.1.stop)
    (hd : m.inner.Pairwise (fun e1 e2 => e1.1.disjoint e2.1)) :
    (∀ b v x, (b, v) ∈ m.inner → b.containsAddr x →
      m.get_from_address x = some v) ∧
    (∀ x, (∀ e ∈ m.inner, ¬ e.1.containsAddr x) →
      m.get_from_address x = none) := by
  constructor
  · intro b v x hmem hbx
    rcases hbs : binarySearchBy (fun e => pointCmp e.1 x) m.inner with j | i
    · obtain ⟨hjl, hL, hR⟩ :=
        binarySearchBy_err (searchMono_pointCmp hs hv hd x) hbs
      obtain ⟨k, hget⟩ := List.mem_iff_get.1 hmem
      rcases lt_or_ge k.1 j with hkj | hkj
      · have hlt := hL k.1 k.2 hkj
        rw [hget] at hlt
        rw [pointCmp_lt_iff] at hlt
        exact absurd (lt_of_le_of_lt hbx.2 hlt) (lt_irrefl x)
      · have hgt := hR k.1 k.2 hkj
        rw [hget] at hgt
        have : pointCmp b x ≠ .gt := by
          rw [pointCmp_eq_iff.2 hbx]
          intro h'
          cases h'
        exact absurd hgt this
    · obtain ⟨hi, heq⟩ := binarySearchBy_ok hbs
      rw [get_from_address_ok_eq m x hbs, List.get?_eq_get hi]
      have hix : (m.inner.get ⟨i, hi⟩).1.containsAddr x := pointCmp_eq_iff.1 heq
      rw [sorted_point_unique hd hi hmem hbx hix]
      rfl
  · intro x hnone
    rcases hbs : binarySearchBy (fun e => pointCmp e.1 x) m.inner with j | i
    · exact get_from_address_err_eq m x hbs
    · obtain ⟨hi, heq⟩ := binarySearchBy_ok hbs
      have hix := pointCmp_eq_iff.1 heq
      exact absurd hix (hnone _ (m.inner.get_mem i hi))

/-- Building a map from a list of `(block, value)` pairs by repeated sorted
`insert`, starting from the empty map (the order of insertions is the order
of the list). -/
def buildInsert (ps : List (IpAddrBlock α × τ)) : IpAddrBlockMap α τ :=
  ps.foldl (fun m e => (m.insert e.1 e.2).1) IpAddrBlockMap.new

/-- Valid pairwise disjoint blocks have pairwise distinct blocks. -/
theorem distinct_of_disjoint {ps : List (IpAddrBlock α × τ)}
    (hv : ∀ e ∈ ps, e.1.start ≤ e.1.stop)
    (hd : ps.Pairwise (fun e1 e2 => e1.1.disjoint e2.1)) :
    ps.Pairwise (fun e1 e2 => e1.1 ≠ e2.1) := by
  refine List.Pairwise.imp_of_mem ?_ hd
  intro e1 e2 h1 h2 hdisj heq
  rcases hdisj with h' | h'
  · rw [heq] at h'
    exact absurd (lt_of_le_of_lt (hv e2 h2) h') (lt_irrefl _)
  · rw [heq] at h'
    exact absurd (lt_of_le_of_lt (hv e2 h2) h') (lt_irrefl _)

/-- Claim C1: inserting any number of valid, pairwise non-overlapping
`(range, value)` pairs, in any order, through sorted `insert` yields a
normalized map (`dirty = false` and strictly sorted entries), on which
`get_from_address` answers `some v` for every address inside an inserted
range `(b, v)` and `none` for every address inside no inserted range. -/
theorem c1_sorted_insert (ps : List (IpAddrBlock α × τ))
    (hv : ∀ e ∈ ps, e.1.start ≤ e.1.stop)
    (hd : ps.Pairwise (fun e1 e2 => e1.1.disjoint e2.1)) :
    (buildInsert ps).dirty = false ∧
    ((buildInsert ps).inner).Pairwise entryLt ∧
    (∀ b v x, (b, v) ∈ ps → b.containsAddr x →
      (buildInsert ps).get_from_address x = some v) ∧
    (∀ x, (∀ e ∈ ps, ¬ e.1.containsAddr x) →
      (buildInsert ps).get_from_address x = none) := by
  obtain ⟨hd', hs', hp'⟩ := foldl_insert_spec ps IpAddrBlockMap.new rfl
    List.Pairwise.nil (fun e _ e' he' => absurd he' (List.not_mem_nil e'))
    (distinct_of_disjoint hv hd)
  rw [show (IpAddrBlockMap.new : IpAddrBlockMap α τ).inner = [] from rfl,
    List.append_nil] at hp'
  have hvi : ∀ e ∈ (buildInsert ps).inner, e.1.start ≤ e.1.stop :=
    fun e he => hv e (hp'.subset he)
  have hdi : (buildInsert ps).inner.Pairwise (fun e1 e2 => e1.1.disjoint e2.1) :=
    (List.Perm.pairwise_iff (fun h => Or.symm h) hp'.symm).1 hd
  have hspec := get_from_address_spec hs' hvi hdi
  exact ⟨hd', hs', fun b v x hmem hbx => hspec.1 b v x (hp'.symm.subset hmem) hbx,
    fun x hnone => hspec.2 x (fun e he => hnone e (hp'.subset he))⟩

/-- Witness for `c1_sorted_insert`: two disjoint ranges inserted out of
order; `15` lies in `[10, 20]` and resolves to its value `1`, while `7`
lies in neither range and resolves to nothing. -/
theorem c1_sorted_insert_witness :
    (buildInsert [((⟨10, 20⟩ : IpAddrBlock ℕ), 1), (⟨0, 5⟩, 2)]).get_from_address
        15 = some 1 ∧
      (buildInsert [((⟨10, 20⟩ : IpAddrBlock ℕ), 1),
        (⟨0, 5⟩, 2)]).get_from_address 7 = none :=
  ⟨(c1_sorted_insert [(⟨10, 20⟩, 1), (⟨0, 5⟩, 2)] (by decide)
      (by decide)).2.2.1 ⟨10, 20⟩ 1 15 (by decide) (by decide),
    (c1_sorted_insert [(⟨10, 20⟩, 1), (⟨0, 5⟩, 2)] (by decide)
      (by decide)).2.2.2 7 (by decide)⟩

/-! ### Normalize: dedup-then-sort -/

/-- When `same_bucket` rejects every adjacent pair starting from `cur`,
`dedup_by` keeps everything. -/
theorem dedupGo_eq_of_chain {β : Type} {r : β → β → Bool} :
    ∀ (l : List β) (cur : β), List.Chain (fun a b => r b a = false) cur l →
      IpAddrBlockMap.dedupGo r cur l = cur :: l := by
  intro l
  induction l with
  | nil =>
    intro cur _
    rfl
  | cons b l ih =>
    intro cur hc
    rcases hc with _ | ⟨hr, hc⟩
    unfold IpAddrBlockMap.dedupGo
    rw [hr]
    show cur :: IpAddrBlockMap.dedupGo r b l = cur :: b :: l
    rw [ih b hc]

/-- `dedup_by` is the identity on lists whose adjacent pairs are all
rejected by `same_bucket` (in particular on lists with pairwise distinct
keys). -/
theorem dedupBy_eq_of_pairwise {β : Type} {r : β → β → Bool} {l : List β}
    (h : l.Pairwise (fun a b => r b a = false)) :
    IpAddrBlockMap.dedupBy r l = l := by
  cases l with
  | nil => rfl
  | cons a l =>
    show IpAddrBlockMap.dedupGo r a l = a :: l
    exact dedupGo_eq_of_chain l a (List.Pairwise.chain h)

/-- The entries output by `dedup_by` are a sublist of its input. -/
theorem dedupGo_sublist {β : Type} {r : β → β → Bool} :
    ∀ (l : List β) (cur : β),
      List.Sublist (IpAddrBlockMap.dedupGo r cur l) (cur :: l) := by
  intro l
  induction l with
  | nil =>
    intro cur
    exact List.Sublist.refl _
  | cons b l ih =>
    intro cur
    unfold IpAddrBlockMap.dedupGo
    by_cases hr : r b cur
    · rw [if_pos hr]
      exact List.Sublist.trans (ih cur) (List.Sublist.cons₂ cur (List.sublist_cons_self b l))
    · rw [if_neg hr]
      exact List.Sublist.cons₂ cur (ih b)

/-- See `dedupGo_sublist`. -/
theorem dedupBy_sublist {β : Type} (r : β → β → Bool) (l : List β) :
    List.Sublist (IpAddrBlockMap.dedupBy r l) l := by
  cases l with
  | nil => exact List.Sublist.refl _
  | cons a l => exact dedupGo_sublist l a

/-- `normalize` on a map with pairwise distinct blocks: the result is a
strictly sorted permutation of the original entries, with the pending flag
cleared. -/
theorem normalize_of_distinct {m : IpAddrBlockMap α τ}
    (h : m.inner.Pairwise (fun e1 e2 => e1.1 ≠ e2.1)) :
    (m.normalize).dirty = false ∧
    ((m.normalize).inner).Pairwise entryLt ∧
    List.Perm (m.normalize).inner m.inner := by
  have hded : IpAddrBlockMap.dedupBy (fun a b => decide (a.1 = b.1)) m.inner =
      m.inner := by
    refine dedupBy_eq_of_pairwise (List.Pairwise.imp ?_ h)
    intro a b hab
    exact decide_eq_false (fun hba => hab hba.symm)
  have hperm : List.Perm (m.normalize).inner m.inner := by
    show List.Perm (List.insertionSort entryLe
      (IpAddrBlockMap.dedupBy (fun a b => decide (a.1 = b.1)) m.inner)) m.inner
    rw [hded]
    exact List.perm_insertionSort entryLe m.inner
  refine ⟨rfl, ?_, hperm⟩
  have hsorted : List.Sorted entryLe (m.normalize).inner := by
    show List.Sorted entryLe (List.insertionSort entryLe
      (IpAddrBlockMap.dedupBy (fun a b => decide (a.1 = b.1)) m.inner))
    exact List.sorted_insertionSort entryLe _
  have hne : (m.normalize).inner.Pairwise (fun e1 e2 => e1.1 ≠ e2.1) :=
    (List.Perm.pairwise_iff (fun hab hba => hab hba.symm) hperm.symm).1 h
  have hand := List.pairwise_and_iff.2 ⟨hsorted, hne⟩
  exact List.Pairwise.imp (fun hab => entryLt_of_entryLe_of_ne hab.1 hab.2) hand

/-- Bulk loading: `insert_unstable` starting from a pending map appends each
entry in order. -/
theorem foldl_insert_unstable_dirty (ps : List (IpAddrBlock α × τ)) :
    ∀ (m : IpAddrBlockMap α τ), m.dirty = true →
      (ps.foldl (fun m e => (m.insert_unstable e.1 e.2).1) m).inner =
        m.inner ++ ps ∧
      (ps.foldl (fun m e => (m.insert_unstable e.1 e.2).1) m).dirty = true := by
  induction ps with
  | nil =>
    intro m hd
    exact ⟨(List.append_nil m.inner).symm, hd⟩
  | cons e ps ih =>
    intro m hd
    have hstep := insert_unstable_dirty_eq m hd e.1 e.2
    show (ps.foldl (fun m e => (m.insert_unstable e.1 e.2).1)
        (m.insert_unstable e.1 e.2).1).inner = m.inner ++ e :: ps ∧
      (ps.foldl (fun m e => (m.insert_unstable e.1 e.2).1)
        (m.insert_unstable e.1 e.2).1).dirty = true
    rw [hstep]
    have hrec := ih { inner := m.inner ++ [(e.1, e.2)], dirty := true } rfl
    refine ⟨?_, hrec.2⟩
    rw [hrec.1, List.append_assoc]
    rfl

/-- Building a map by repeated `insert_unstable` from the empty map simply
collects the entries in insertion order. -/
theorem foldl_insert_unstable_new (ps : List (IpAddrBlock α × τ)) :
    (ps.foldl (fun m e => (m.insert_unstable e.1 e.2).1)
      (IpAddrBlockMap.new : IpAddrBlockMap α τ)).inner = ps := by
  cases ps with
  | nil => rfl
  | cons e ps =>
    have hbs : IpAddrBlockMap.blockSearch
        ((IpAddrBlockMap.new : IpAddrBlockMap α τ).inner) e.1 = .error 0 := rfl
    have hstep := insert_unstable_clean_err_eq
      (IpAddrBlockMap.new : IpAddrBlockMap α τ) rfl e.1 e.2 hbs
    show (ps.foldl (fun m e => (m.insert_unstable e.1 e.2).1)
      ((IpAddrBlockMap.new : IpAddrBlockMap α τ).insert_unstable e.1 e.2).1).inner
      = e :: ps
    rw [hstep]
    exact (foldl_insert_unstable_dirty ps _ rfl).1

/-- Building a map via N `insert_unstable` calls followed by one
`normalize` (the bulk-load path). -/
def buildUnstable (ps : List (IpAddrBlock α × τ)) : IpAddrBlockMap α τ :=
  (ps.foldl (fun m e => (m.insert_unstable e.1 e.2).1)
    IpAddrBlockMap.new).normalize

/-- Claim C5: for pairwise distinct, non-overlapping ranges, bulk loading
(`insert_unstable` for every pair, then one `normalize`) produces exactly
the same entries as repeated sorted `insert` — even as sequences, both
being the strictly sorted arrangement of the input pairs, so in particular
the entry sets are equal. -/
theorem c5_bulk_load_equiv (ps : List (IpAddrBlock α × τ))
    (h : ps.Pairwise (fun e1 e2 => e1.1 ≠ e2.1 ∧ e1.1.disjoint e2.1)) :
    (buildUnstable ps).inner = (buildInsert ps).inner := by
  have hdist : ps.Pairwise (fun e1 e2 => e1.1 ≠ e2.1) :=
    List.Pairwise.imp (fun hab => hab.1) h
  have hinner : (ps.foldl (fun m e => (m.insert_unstable e.1 e.2).1)
      (IpAddrBlockMap.new : IpAddrBlockMap α τ)).inner = ps :=
    foldl_insert_unstable_new ps
  have hdist' : (ps.foldl (fun m e => (m.insert_unstable e.1 e.2).1)
      (IpAddrBlockMap.new : IpAddrBlockMap α τ)).inner.Pairwise
      (fun e1 e2 => e1.1 ≠ e2.1) := by
    rw [hinner]
    exact hdist
  obtain ⟨_, hsortU, hpermU⟩ := normalize_of_distinct hdist'
  rw [hinner] at hpermU
  obtain ⟨_, hsortI, hpermI⟩ := foldl_insert_spec ps IpAddrBlockMap.new rfl
    List.Pairwise.nil (fun e _ e' he' => absurd he' (List.not_mem_nil e')) hdist
  rw [show (IpAddrBlockMap.new : IpAddrBlockMap α τ).inner = [] from rfl,
    List.append_nil] at hpermI
  exact List.eq_of_perm_of_sorted (hpermU.trans hpermI.symm) hsortU hsortI

/-- Witness for `c5_bulk_load_equiv`: the two build paths agree on two
distinct disjoint ranges given in unsorted order. -/
theorem c5_bulk_load_equiv_witness :
    (buildUnstable [((⟨10, 20⟩ : IpAddrBlock ℕ), 1), (⟨0, 5⟩, 2)]).inner =
      (buildInsert [((⟨10, 20⟩ : IpAddrBlock ℕ), 1), (⟨0, 5⟩, 2)]).inner :=
  c5_bulk_load_equiv [(⟨10, 20⟩, 1), (⟨0, 5⟩, 2)] (by decide)

/-- Claim C3 (exact statement, refuted): `normalize` runs `dedup_by`
**before** sorting, so duplicates that are not adjacent in the stored
sequence survive: normalizing the entry sequence
`[([1,1], 0), ([0,0], 0), ([1,1], 0)]` leaves two entries with the
identical range `[1,1]`. -/
theorem c3_normalize_cex :
    ¬ ((((IpAddrBlockMap.mk [((⟨1, 1⟩ : IpAddrBlock ℕ), 0), (⟨0, 0⟩, 0),
        (⟨1, 1⟩, 0)] true).normalize).inner.map (fun e => e.1)).Nodup) := by
  decide

/-- Claim C3, amended: after `normalize()` the entries are sorted ascending
by the range ordering and the pending flag is false; since adjacent
duplicates are collapsed **before** sorting, entry ranges are guaranteed
pairwise distinct only when entries with identical ranges were contiguous
beforehand (equivalently, when collapsing adjacent duplicates leaves all
ranges distinct). -/
theorem c3_normalize (m : IpAddrBlockMap α τ) :
    (m.normalize).dirty = false ∧
    List.Sorted entryLe (m.normalize).inner ∧
    (((IpAddrBlockMap.dedupBy (fun a b => decide (a.1 = b.1)) m.inner).map
        (fun e => e.1)).Nodup →
      ((m.normalize).inner.map (fun e => e.1)).Nodup) := by
  refine ⟨rfl, List.sorted_insertionSort entryLe _, ?_⟩
  intro hnd
  have hperm : List.Perm (m.normalize).inner
      (IpAddrBlockMap.dedupBy (fun a b => decide (a.1 = b.1)) m.inner) :=
    List.perm_insertionSort entryLe _
  exact ((hperm.map (fun e => e.1)).nodup_iff).2 hnd

/-- Witness for `c3_normalize`: a pending map whose duplicate ranges are
adjacent; after `normalize` all ranges are distinct. -/
theorem c3_normalize_witness :
    ((IpAddrBlockMap.dedupBy (fun a b => decide (a.1 = b.1))
        (IpAddrBlockMap.mk [((⟨1, 1⟩ : IpAddrBlock ℕ), 5), (⟨1, 1⟩, 6),
          (⟨0, 0⟩, 7)] true).inner).map (fun e => e.1)).Nodup ∧
      (((IpAddrBlockMap.mk [((⟨1, 1⟩ : IpAddrBlock ℕ), 5), (⟨1, 1⟩, 6),
        (⟨0, 0⟩, 7)] true).normalize).inner.map (fun e => e.1)).Nodup :=
  ⟨by decide, (c3_normalize _).2.2 (by decide)⟩

/-- Claim C4 (exact statement, refuted): `normalize` is not idempotent.  On
`[([1,1], 0), ([0,0], 0), ([1,1], 0)]` the first call sorts the surviving
duplicates next to each other, so the second call's `dedup_by` removes one
of them, shortening the entry sequence. -/
theorem c4_normalize_cex :
    (((IpAddrBlockMap.mk [((⟨1, 1⟩ : IpAddrBlock ℕ), 0), (⟨0, 0⟩, 0),
        (⟨1, 1⟩, 0)] true).normalize).normalize).inner ≠
      ((IpAddrBlockMap.mk [((⟨1, 1⟩ : IpAddrBlock ℕ), 0), (⟨0, 0⟩, 0),
        (⟨1, 1⟩, 0)] true).normalize).inner := by
  decide

/-- Claim C4, amended: `normalize` is idempotent on every map state in which
entries with identical ranges are contiguous (equivalently, collapsing
adjacent duplicates leaves all ranges distinct) — in particular whenever
all ranges are distinct.  The counterexample `c4_normalize_cex` shows
idempotence fails exactly when non-adjacent duplicates survive the first
call. -/
theorem c4_normalize_idem (m : IpAddrBlockMap α τ)
    (h : ((IpAddrBlockMap.dedupBy (fun a b => decide (a.1 = b.1)) m.inner).map
      (fun e => e.1)).Nodup) :
    ((m.normalize).normalize).inner = (m.normalize).inner := by
  have hsorted : List.Sorted entryLe (m.normalize).inner :=
    List.sorted_insertionSort entryLe _
  have hperm : List.Perm (m.normalize).inner
      (IpAddrBlockMap.dedupBy (fun a b => decide (a.1 = b.1)) m.inner) :=
    List.perm_insertionSort entryLe _
  have hnd : ((m.normalize).inner.map (fun e => e.1)).Nodup :=
    ((hperm.map (fun e => e.1)).nodup_iff).2 h
  have hne : (m.normalize).inner.Pairwise (fun e1 e2 => e1.1 ≠ e2.1) :=
    List.pairwise_map.1 hnd
  have hded : IpAddrBlockMap.dedupBy (fun a b => decide (a.1 = b.1))
      (m.normalize).inner = (m.normalize).inner := by
    refine dedupBy_eq_of_pairwise (List.Pairwise.imp ?_ hne)
    intro a b hab
    exact decide_eq_false (fun hba => hab hba.symm)
  show List.insertionSort entryLe (IpAddrBlockMap.dedupBy
    (fun a b => decide (a.1 = b.1)) (m.normalize).inner) = (m.normalize).inner
  rw [hded]
  exact List.Sorted.insertionSort_eq hsorted

/-- Witness for `c4_normalize_idem` on a pending two-entry map with distinct
ranges. -/
theorem c4_normalize_idem_witness :
    (((IpAddrBlockMap.mk [((⟨2, 2⟩ : IpAddrBlock ℕ), 1), (⟨0, 0⟩, 2)]
        true).normalize).normalize).inner =
      ((IpAddrBlockMap.mk [((⟨2, 2⟩ : IpAddrBlock ℕ), 1), (⟨0, 0⟩, 2)]
        true).normalize).inner :=
  c4_normalize_idem _ (by decide)

/-- Witness for `c6_insert_unstable`: inserting over an existing exact range
in a clean one-entry map reports the stored value `7`, and the theorem then
certifies the map was clean with `([0,1], 7)` present. -/
theorem c6_insert_unstable_witness :
    (IpAddrBlockMap.mk [((⟨0, 1⟩ : IpAddrBlock ℕ), 7)] false).dirty = false ∧
      ((⟨0, 1⟩ : IpAddrBlock ℕ), 7) ∈
        (IpAddrBlockMap.mk [((⟨0, 1⟩ : IpAddrBlock ℕ), 7)] false).inner :=
  (c6_insert_unstable (IpAddrBlockMap.mk [(⟨0, 1⟩, 7)] false) ⟨0, 1⟩ 9).2.2.1 7
    (by decide)

/-! ### Country codes (`geolocate-core/src/country.rs`) -/

/-- `InvalidCodeError(Box<str>)`: carries the rejected input. -/
structure InvalidCodeError where
  code : List Char
deriving DecidableEq

/-- `CountryCode`: an Alpha-2/3/4 code (fixed-size arrays of `char`) or the
`Unassigned` sentinel. -/
inductive CountryCode where
  | alpha2 : Char → Char → CountryCode
  | alpha3 : Char → Char → Char → CountryCode
  | alpha4 : Char → Char → Char → Char → CountryCode
  | unassigned : CountryCode
deriving DecidableEq

/-- `FromStr for CountryCode`: match on `value.chars().count()`; for counts
2/3/4 take that many chars and, if all satisfy `char::is_ascii_uppercase`
(modelled by `Char.isUpper`, which is exactly ASCII `A`-`Z`), build the
sized code, otherwise fall back to `Unassigned`; any other count is an
`InvalidCodeError` carrying the input.  Strings are modelled as their
character lists, so matching on the count is matching on the list shape. -/
def CountryCode.from_str (s : List Char) : Except InvalidCodeError CountryCode :=
  match s with
  | [a, b] => .ok (if [a, b].all Char.isUpper then .alpha2 a b else .unassigned)
  | [a, b, c] =>
    .ok (if [a, b, c].all Char.isUpper then .alpha3 a b c else .unassigned)
  | [a, b, c, d] =>
    .ok (if [a, b, c, d].all Char.isUpper then .alpha4 a b c d else .unassigned)
  | _ => .error ⟨s⟩

/-- Claim C8: short-code parsing succeeds with an Alpha-2/3/4 code exactly
when the character count is 2/3/4 and all characters are uppercase ASCII
letters; a correctly sized input with a non-uppercase character degrades to
the `Unassigned` sentinel; any other length is a hard `InvalidCodeError`.
The scenario checks: `"US"` parses to a two-letter code, `"XX1"` to the
sentinel, `"ABCDE"` to the error. -/
theorem c8_country_code_parse :
    (∀ s : List Char,
      ((∃ a b, CountryCode.from_str s = .ok (.alpha2 a b)) ↔
        s.length = 2 ∧ s.all Char.isUpper) ∧
      ((∃ a b c, CountryCode.from_str s = .ok (.alpha3 a b c)) ↔
        s.length = 3 ∧ s.all Char.isUpper) ∧
      ((∃ a b c d, CountryCode.from_str s = .ok (.alpha4 a b c d)) ↔
        s.length = 4 ∧ s.all Char.isUpper) ∧
      (CountryCode.from_str s = .ok .unassigned ↔
        (s.length = 2 ∨ s.length = 3 ∨ s.length = 4) ∧ ¬ s.all Char.isUpper) ∧
      (CountryCode.from_str s = .error ⟨s⟩ ↔
        ¬ (s.length = 2 ∨ s.length = 3 ∨ s.length = 4))) ∧
    CountryCode.from_str ['U', 'S'] = .ok (.alpha2 'U' 'S') ∧
    CountryCode.from_str ['X', 'X', '1'] = .ok .unassigned ∧
    CountryCode.from_str ['A', 'B', 'C', 'D', 'E'] =
      .error ⟨['A', 'B', 'C', 'D', 'E']⟩ := by
  refine ⟨?_, rfl, rfl, rfl⟩
  intro s
  rcases s with _ | ⟨a, _ | ⟨b, _ | ⟨c, _ | ⟨d, _ | ⟨e, rest⟩⟩⟩⟩⟩
  · simp [CountryCode.from_str]
  · simp [CountryCode.from_str]
  · by_cases hall : [a, b].all Char.isUpper <;>
      simp [CountryCode.from_str, hall]
  · by_cases hall : [a, b, c].all Char.isUpper <;>
      simp [CountryCode.from_str, hall]
  · by_cases hall : [a, b, c, d].all Char.isUpper <;>
      simp [CountryCode.from_str, hall]
  · simp [CountryCode.from_str]

/-! ### Address deserialization (`geolocate-cli/src/ip.rs`) -/

/-- `Ipv4Visitor::visit_u32`: octet `index` is
`(v >> ((3 - index) * 8)) & 0xFF` for `index` in `0..4`. -/
def visitU32 (v : Nat) : List Nat :=
  (List.range 4).map fun index => (v >>> ((3 - index) * 8)) % 2 ^ 8

/-- Modelled std behavior: `Ipv4Addr::from(u32)` stores the four octets
big-endian, so octet `i` is bits `(3 - i) * 8` and up; this is the same
coordinate the dotted-decimal text of the address parses to. -/
def ipv4OctetsOfU32 (v : Nat) : List Nat :=
  (List.range 4).map fun index => (v >>> ((3 - index) * 8)) % 2 ^ 8

/-- The IPv4 integer path agrees with the address's own text/integer
encoding (the two formulas coincide). -/
theorem visitU32_correct (v : Nat) : visitU32 v = ipv4OctetsOfU32 v := rfl

/-- `Ipv6Visitor::visit_u128`: segment `index` is
`(v >> ((3 - index) * 16)) & 0xFFFF` — but `index` ranges over `0..8`
(eight `u16` segments), and `3 - index` is a `usize` subtraction.  For
`index ≥ 4` the subtraction wraps modulo `2^64` (release-build semantics;
a debug build panics on the underflow), and the resulting oversized shift
amount is masked modulo 128 by the `u128` shift. -/
def visitU128 (v : Nat) : List Nat :=
  (List.range 8).map fun index =>
    (v >>> ((((3 + 2 ^ 64 - index) % 2 ^ 64) * 16 % 2 ^ 64) % 128)) % 2 ^ 16

/-- Modelled std behavior: `Ipv6Addr::from(u128)` stores the eight 16-bit
segments big-endian, so segment `i` is bits `(7 - i) * 16` and up; this is
the same coordinate the colon-hex text of the address parses to. -/
def ipv6SegmentsOfU128 (v : Nat) : List Nat :=
  (List.range 8).map fun index => (v >>> ((7 - index) * 16)) % 2 ^ 16

/-- Claim C9, failing input for the IPv6 half: for the 128-bit integer `1`
(the address `::1`), `visit_u128` places the low 64 bits' segments into the
upper half of the address — segment 3 becomes `1` — instead of producing
`::1`, whose segments are `[0,0,0,0,0,0,0,1]`.  (The shift should use
`7 - index`; with `3 - index` the two 64-bit halves are swapped in release
builds, and debug builds panic on the `usize` underflow at `index = 4`.) -/
theorem c9_ipv6_visitor_bug :
    visitU128 1 = [0, 0, 0, 1, 0, 0, 0, 0] ∧
    ipv6SegmentsOfU128 1 = [0, 0, 0, 0, 0, 0, 0, 1] ∧
    visitU128 1 ≠ ipv6SegmentsOfU128 1 := by
  exact ⟨by decide, by decide, by decide⟩

/-! ### Block construction from slices -/

/-- `EmptyBlockError`: returned for an empty (or inverted) range. -/
structure EmptyBlockError where
deriving DecidableEq

/-- `IpAddrBlock::from_slice` (source lines 309-314): reads `slice.first()`
**twice** — the `end` binding also calls `first()`, not `last()` — so both
endpoints come from the first element; the empty slice is an error. -/
def IpAddrBlock.from_slice (l : List α) :
    Except EmptyBlockError (IpAddrBlock α) :=
  match l.head? with
  | none => .error ⟨⟩
  | some s =>
    match l.head? with
    | none => .error ⟨⟩
    | some e => .ok ⟨s, e⟩

/-- `IpAddrBlock::from_mut_slice`: `sort_unstable` the slice (modelled by
`insertionSort` over `≤`; on `Copy + Ord` elements any correct sort yields
the same list), then `from_slice`.  The `TryFrom` impls for arrays, mutable
slices and boxed slices are one-line wrappers around this function. -/
def IpAddrBlock.from_mut_slice (l : List α) :
    Except EmptyBlockError (IpAddrBlock α) :=
  IpAddrBlock.from_slice (List.insertionSort (· ≤ ·) l)

/-- Claim C10: `from_mut_slice` on a non-empty slice returns the one-point
block `[min, min]` built from the smallest element (because `from_slice`
reads the first element of the sorted slice for both endpoints), and the
empty-block error on the empty slice. -/
theorem c10_from_mut_slice (l : List α) :
    (l = [] → IpAddrBlock.from_mut_slice l = .error ⟨⟩) ∧
    (∀ a, a ∈ l → (∀ x ∈ l, a ≤ x) →
      IpAddrBlock.from_mut_slice l = .ok ⟨a, a⟩) := by
  constructor
  · rintro rfl
    rfl
  · intro a ha hmin
    have hperm := List.perm_insertionSort (· ≤ ·) l
    have hsorted := List.sorted_insertionSort (· ≤ ·) l
    have ha' : a ∈ List.insertionSort (· ≤ ·) l := hperm.mem_iff.2 ha
    unfold IpAddrBlock.from_mut_slice IpAddrBlock.from_slice
    rcases hsort : List.insertionSort (· ≤ ·) l with _ | ⟨x, rest⟩
    · rw [hsort] at ha'
      cases ha'
    · rw [hsort] at ha' hsorted hperm
      have hx : x ∈ l := hperm.subset (List.mem_cons_self x rest)
      have hax : a ≤ x := hmin x hx
      have hxa : x ≤ a := by
        rcases List.mem_cons.1 ha' with rfl | hmem
        · exact le_rfl
        · exact (List.pairwise_cons.1 hsorted).1 a hmem
      have : x = a := le_antisymm hxa hax
      subst this
      rfl

/-- Witness for `c10_from_mut_slice`: the unsorted slice `[3, 1, 2]`
produces the one-point block `[1, 1]`. -/
theorem c10_from_mut_slice_witness :
    IpAddrBlock.from_mut_slice [3, 1, 2] = .ok (⟨1, 1⟩ : IpAddrBlock ℕ) :=
  (c10_from_mut_slice [3, 1, 2]).2 1 (by decide) (by decide)

end Geolocate
